import Mathlib

/-!
Verification of the Alpha-Gobang-Zero game-state engine and training
orchestration against its natural-language specification.

The Python sources `alphazero/chess_board.py` and `alphazero/train.py` are
shallowly embedded: the `ChessBoard` object becomes a structure passed
explicitly, its ordered dict of moves becomes an insertion-ordered
association list, Python exceptions become `Except` values that carry the
(possibly partially mutated) object state at the raise point, and the
filesystem effects of the training crash guard become an explicit event
trace.
-/

namespace AlphaGobang

/-- `ChessBoard.BLACK` of `chess_board.py`. -/
def BLACK : Int := 1

/-- `ChessBoard.WHITE` of `chess_board.py`. -/
def WHITE : Int := 0

/-- `ChessBoard.EMPTY` of `chess_board.py`. -/
def EMPTY : Int := -1

/-- The mutable state of a Python `ChessBoard` object.  `state` is the
`OrderedDict` mapping cell index to the player who occupied it, in insertion
order. -/
structure ChessBoard where
  board_len : Nat
  current_player : Int
  n_feature_planes : Nat
  available_actions : List Nat
  state : List (Nat × Int)
  previous_action : Option Int
deriving DecidableEq

/-- `OrderedDict.get(k, EMPTY)`: value of the first entry with key `k`, or the
`EMPTY` sentinel. -/
def stateGet (st : List (Nat × Int)) (k : Nat) : Int :=
  match st.find? (fun e => e.1 == k) with
  | some e => e.2
  | none => EMPTY

/-- `OrderedDict` assignment `st[k] = v`: update in place when the key exists
(keeping its position), otherwise append at the end. -/
def odSet (st : List (Nat × Int)) (k : Nat) (v : Int) : List (Nat × Int) :=
  if st.any (fun e => e.1 == k) then
    st.map (fun e => if e.1 == k then (k, v) else e)
  else
    st ++ [(k, v)]

/-- The board state `ChessBoard.__init__` builds once its validation has
passed. -/
def initBoard (board_len n_feature_planes : Nat) : ChessBoard :=
  { board_len := board_len
    current_player := BLACK
    n_feature_planes := n_feature_planes
    available_actions := List.range (board_len * board_len)
    state := []
    previous_action := none }

/-- `ChessBoard.__init__(board_len, n_feature_planes)`: raises `ValueError`
when the feature-plane count is even. -/
def chessBoardInit (board_len n_feature_planes : Nat) : Except String ChessBoard :=
  if n_feature_planes % 2 == 0 then
    Except.error "n_feature_planes must be odd"
  else
    Except.ok (initBoard board_len n_feature_planes)

/-- A fresh board with the default `n_feature_planes = 9`. -/
def newBoard (board_len : Nat) : ChessBoard :=
  initBoard board_len 9

/-- `ChessBoard.clear_board()`. -/
def clear_board (b : ChessBoard) : ChessBoard :=
  { b with
    state := []
    previous_action := none
    current_player := BLACK
    available_actions := List.range (b.board_len * b.board_len) }

/-- `ChessBoard.do_action(action)`.  Python mutates `previous_action` first,
then `available_actions.remove(action)` raises `ValueError` when the action is
not available; on that exception the object keeps the already-performed
mutation, which the `Except.error` payload records. -/
def do_action (b : ChessBoard) (action : Int) : Except ChessBoard ChessBoard :=
  let b1 := { b with previous_action := some action }
  if 0 ≤ action ∧ action.toNat ∈ b1.available_actions then
    Except.ok { b1 with
      available_actions := b1.available_actions.erase action.toNat
      state := odSet b1.state action.toNat b1.current_player
      current_player := WHITE + BLACK - b1.current_player }
  else
    Except.error b1

/-- `ChessBoard.do_action_(pos)`: the human-input variant.  Returns the
updated board and the boolean success flag. -/
def do_action_ (b : ChessBoard) (pos : Int × Int) : ChessBoard × Bool :=
  let action : Int := pos.1 * (b.board_len : Int) + pos.2
  if 0 ≤ action ∧ action.toNat ∈ b.available_actions then
    match do_action b action with
    | Except.ok b2 => (b2, true)
    | Except.error b2 => (b2, false)
  else
    (b, false)

/-- Apply a list of actions in order; `none` as soon as one raises. -/
def applyMoves : ChessBoard → List Int → Option ChessBoard
  | b, [] => some b
  | b, m :: ms =>
    match do_action b m with
    | Except.ok b' => applyMoves b' ms
    | Except.error _ => none

/-- The board reached from a fresh `n × n` board by a concrete move list
(falling back to the fresh board when a move is illegal); used to name
concrete boards in closed statements. -/
def boardAfter (n : Nat) (ms : List Int) : ChessBoard :=
  (applyMoves (newBoard n) ms).getD (newBoard n)

/-- Boards reachable from a fresh `n × n` board through successful
`do_action` calls. -/
inductive Reachable (n : Nat) : ChessBoard → Prop
  | base : Reachable n (newBoard n)
  | step {b : ChessBoard} {a : Int} {b' : ChessBoard} :
      Reachable n b → do_action b a = Except.ok b' → Reachable n b'

/-- Python `len(set(vals)) == 1` for the five values collected along a line:
the list is non-empty and all its elements are equal to the first. -/
def uniqLine (vals : List Int) : Bool :=
  match vals with
  | [] => false
  | v :: vs => vs.all (fun x => x == v)

/-- The body of the scan loop of `ChessBoard.is_game_over` at one occupied
cell `action`: the four direction checks, each guarded exactly as the Python
conditions `col <= n-5`, `row <= n-5`, `col >= 4` (read over the integers)
and collecting the five values with `state.get(i, EMPTY)`. -/
def checkAt (b : ChessBoard) (action : Nat) : Bool :=
  let n := b.board_len
  let row := action / n
  let col := action % n
  let g := stateGet b.state
  (decide (col + 5 ≤ n) &&
    uniqLine [g action, g (action + 1), g (action + 2), g (action + 3), g (action + 4)]) ||
  (decide (row + 5 ≤ n) &&
    uniqLine [g action, g (action + n), g (action + 2 * n), g (action + 3 * n), g (action + 4 * n)]) ||
  (decide (row + 5 ≤ n) && decide (col + 5 ≤ n) &&
    uniqLine [g action, g (action + (n + 1)), g (action + 2 * (n + 1)), g (action + 3 * (n + 1)),
      g (action + 4 * (n + 1))]) ||
  (decide (row + 5 ≤ n) && decide (4 ≤ col) &&
    uniqLine [g action, g (action + (n - 1)), g (action + 2 * (n - 1)), g (action + 3 * (n - 1)),
      g (action + 4 * (n - 1))])

/-- The scan loop of `ChessBoard.is_game_over`: iterate the occupied cells in
insertion order and return the first one whose direction check fires, with
its player. -/
def scanState (b : ChessBoard) : List (Nat × Int) → Option Int
  | [] => none
  | e :: rest => if checkAt b e.1 then some e.2 else scanState b rest

/-- `ChessBoard.is_game_over()`. -/
def is_game_over (b : ChessBoard) : Bool × Option Int :=
  if b.state.length < 9 then (false, none)
  else
    match scanState b b.state with
    | some p => (true, some p)
    | none => if b.available_actions.isEmpty then (true, none) else (false, none)

/-- A feature tensor as `ChessBoard.get_feature_planes` lays it out before the
final `view`: a list of planes, each a row-major list of `board_len ** 2`
cell values. -/
abbrev Feature : Type := List (List Int)

/-- `ChessBoard.get_feature_planes()`.  `Xt`/`Yt` are the current player's and
the opponent's stones, most recent first; channel `2i` marks `Xt[i:]`,
channel `2i+1` marks `Yt[i:]`, channel 8 is the constant
`current_player` plane. -/
def get_feature_planes (b : ChessBoard) : Feature :=
  let n2 := b.board_len * b.board_len
  let revEntries := b.state.reverse
  let Xt := (revEntries.filter (fun e => e.2 == b.current_player)).map (fun e => e.1)
  let Yt := (revEntries.filter (fun e => !(e.2 == b.current_player))).map (fun e => e.1)
  (List.range 9).map (fun c =>
    if c == 8 then
      (List.range n2).map (fun _ => b.current_player)
    else
      let marks := if c % 2 == 0 then Xt.drop (c / 2) else Yt.drop (c / 2)
      (List.range n2).map (fun idx => if marks.contains idx then (1 : Int) else 0))

/-- Entry of plane `c` at flat cell index `idx`. -/
def planeEntry (ps : Feature) (c idx : Nat) : Int :=
  (List.getD ps c []).getD idx 0

/-- Owner of the cell at row `r`, column `c` (the `EMPTY` sentinel when the
cell is unoccupied). -/
def owner (b : ChessBoard) (r c : Nat) : Int :=
  stateGet b.state (r * b.board_len + c)

/-- The specification's notion of a winning run, stated in board coordinates:
five cells of player `p` contiguous in one of the four directions
(horizontal, vertical, main diagonal, anti-diagonal), all of them inside the
board, so a run can never wrap past an edge. -/
def hasFiveRun (b : ChessBoard) (p : Int) : Prop :=
  ∃ r c : Nat,
    (r < b.board_len ∧ c + 4 < b.board_len ∧ ∀ k < 5, owner b r (c + k) = p) ∨
    (r + 4 < b.board_len ∧ c < b.board_len ∧ ∀ k < 5, owner b (r + k) c = p) ∨
    (r + 4 < b.board_len ∧ c + 4 < b.board_len ∧ ∀ k < 5, owner b (r + k) (c + k) = p) ∨
    (r + 4 < b.board_len ∧ 4 ≤ c ∧ c < b.board_len ∧ ∀ k < 5, owner b (r + k) (c - k) = p)

/-- The colors of the moves of a game of `k` plies in order: BLACK moves
first and the players strictly alternate. -/
def altColors : Nat → List Int
  | 0 => []
  | k + 1 => altColors k ++ [if k % 2 = 0 then BLACK else WHITE]

/-- The board invariant maintained by `do_action`: occupied cells are unique
and in range, the available actions are exactly the unoccupied in-range
cells, the recorded move colors strictly alternate starting from BLACK, and
the player to move follows the parity of the move count. -/
structure Inv (b : ChessBoard) : Prop where
  keys_nodup : (b.state.map Prod.fst).Nodup
  keys_lt : ∀ a ∈ b.state.map Prod.fst, a < b.board_len * b.board_len
  avail_iff : ∀ a : Nat,
    a ∈ b.available_actions ↔ a < b.board_len * b.board_len ∧ a ∉ b.state.map Prod.fst
  avail_nodup : b.available_actions.Nodup
  avail_len : b.available_actions.length + b.state.length = b.board_len * b.board_len
  vals_alt : b.state.map Prod.snd = altColors b.state.length
  player_parity : b.current_player = if b.state.length % 2 = 0 then BLACK else WHITE

theorem inv_newBoard (n : Nat) : Inv (newBoard n) := by
  refine ⟨?_, ?_, ?_, ?_, ?_, ?_, ?_⟩ <;>
    simp [newBoard, initBoard, altColors, List.nodup_range]

theorem inv_clear_board (b : ChessBoard) : Inv (clear_board b) := by
  refine ⟨?_, ?_, ?_, ?_, ?_, ?_, ?_⟩ <;>
    simp [clear_board, altColors, List.nodup_range]

theorem odSet_eq_append {st : List (Nat × Int)} {k : Nat} (v : Int)
    (h : k ∉ st.map Prod.fst) : odSet st k v = st ++ [(k, v)] := by
  unfold odSet
  rw [if_neg]
  simp only [List.any_eq_true, beq_iff_eq, not_exists]
  intro e he
  exact h (List.mem_map.2 ⟨e, he.1, he.2⟩)

theorem inv_do_action {b : ChessBoard} {a : Int} {b' : ChessBoard}
    (hb : Inv b) (h : do_action b a = Except.ok b') :
    Inv b' ∧ b'.board_len = b.board_len ∧
      b'.state.length = b.state.length + 1 ∧
      b'.state = b.state ++ [(a.toNat, b.current_player)] := by
  unfold do_action at h
  by_cases hc : 0 ≤ a ∧ a.toNat ∈ b.available_actions
  · simp only [hc, if_pos, and_self] at h
    obtain ⟨hmem_lt, hmem_notin⟩ := (hb.avail_iff a.toNat).1 hc.2
    have hos : odSet b.state a.toNat b.current_player
        = b.state ++ [(a.toNat, b.current_player)] :=
      odSet_eq_append _ hmem_notin
    cases h
    constructor
    · constructor
      · -- keys nodup
        simp only [hos, List.map_append, List.map_cons, List.map_nil]
        rw [List.nodup_append]
        refine ⟨hb.keys_nodup, List.nodup_singleton _, fun x hx => ?_⟩
        simp only [List.mem_singleton]
        rintro rfl
        exact hmem_notin hx
      · -- keys in range
        intro x hx
        simp only [hos, List.map_append, List.map_cons, List.map_nil,
          List.mem_append, List.mem_singleton] at hx
        rcases hx with hx | hx
        · exact hb.keys_lt x hx
        · subst hx; exact hmem_lt
      · -- available iff
        intro x
        rw [hb.avail_nodup.mem_erase_iff]
        simp only [hos, List.map_append, List.map_cons, List.map_nil,
          List.mem_append, List.mem_singleton]
        rw [hb.avail_iff x]
        constructor
        · rintro ⟨hne, hlt, hnin⟩
          exact ⟨hlt, by simp [hne, hnin]⟩
        · rintro ⟨hlt, hnot⟩
          push_neg at hnot
          exact ⟨hnot.2, hlt, hnot.1⟩
      · -- available nodup
        exact hb.avail_nodup.erase _
      · -- lengths
        simp only [hos, List.length_append, List.length_cons, List.length_nil]
        rw [List.length_erase_of_mem hc.2]
        have := hb.avail_len
        have hpos : 0 < b.available_actions.length := List.length_pos_of_mem hc.2
        omega
      · -- colors alternate
        simp only [hos, List.map_append, List.map_cons, List.map_nil,
          List.length_append, List.length_cons, List.length_nil]
        rw [hb.vals_alt, hb.player_parity]
        show _ = altColors (b.state.length + 1)
        rfl
      · -- player parity
        simp only [hos, List.length_append, List.length_cons, List.length_nil]
        rw [hb.player_parity]
        rcases Nat.even_or_odd b.state.length with he | ho
        · have h0 : b.state.length % 2 = 0 := Nat.even_iff.1 he
          have h1 : (b.state.length + 1) % 2 = 1 := by omega
          simp [h0, h1, BLACK, WHITE]
        · have h0 : b.state.length % 2 = 1 := Nat.odd_iff.1 ho
          have h1 : (b.state.length + 1) % 2 = 0 := by omega
          simp [h0, h1, BLACK, WHITE]
    · refine ⟨rfl, ?_, ?_⟩ <;> simp [hos]
  · simp only [hc, if_neg, not_false_iff] at h
    exact absurd h (by simp)

theorem inv_reachable {n : Nat} {b : ChessBoard} (hb : Reachable n b) :
    Inv b ∧ b.board_len = n := by
  induction hb with
  | base => exact ⟨inv_newBoard n, rfl⟩
  | step _ h ih =>
    obtain ⟨hinv, hlen, _, _⟩ := inv_do_action ih.1 h
    exact ⟨hinv, hlen.trans ih.2⟩

theorem reachable_applyMoves {n : Nat} {b0 b : ChessBoard} {ms : List Int}
    (h0 : Reachable n b0) (h : applyMoves b0 ms = some b) : Reachable n b := by
  induction ms generalizing b0 with
  | nil => simp only [applyMoves] at h; cases h; exact h0
  | cons m ms ih =>
    simp only [applyMoves] at h
    cases hd : do_action b0 m with
    | ok b1 => rw [hd] at h; exact ih (Reachable.step h0 hd) h
    | error b1 => rw [hd] at h; cases h

theorem stateGet_eq_of_mem {st : List (Nat × Int)} (hnd : (st.map Prod.fst).Nodup)
    {a : Nat} {p : Int} (h : (a, p) ∈ st) : stateGet st a = p := by
  induction st with
  | nil => cases h
  | cons e rest ih =>
    simp only [List.map_cons, List.nodup_cons] at hnd
    rcases List.mem_cons.1 h with rfl | hmem
    · simp [stateGet, List.find?_cons_of_pos]
    · have hne : (e.1 == a) = false := by
        simp only [beq_eq_false_iff_ne, ne_eq]
        rintro rfl
        exact hnd.1 (List.mem_map.2 ⟨(e.1, p), hmem, rfl⟩)
      rw [stateGet, List.find?_cons, hne]
      exact ih hnd.2 hmem

theorem mem_of_stateGet {st : List (Nat × Int)} {a : Nat} {p : Int}
    (h : stateGet st a = p) (hp : p ≠ EMPTY) : (a, p) ∈ st := by
  unfold stateGet at h
  cases hf : st.find? (fun e => e.1 == a) with
  | none => rw [hf] at h; exact absurd h.symm hp
  | some e =>
    rw [hf] at h
    have h1 := List.find?_some hf
    have h2 : e ∈ st := List.mem_of_find?_eq_some hf
    simp only [beq_iff_eq] at h1
    have : e = (a, p) := by
      obtain ⟨e1, e2⟩ := e
      simp only at h1 h
      simp only [h1, h]
    exact this ▸ h2

theorem altColors_mem {k : Nat} {x : Int} (h : x ∈ altColors k) :
    x = BLACK ∨ x = WHITE := by
  induction k with
  | zero => cases h
  | succ k ih =>
    rw [altColors] at h
    rcases List.mem_append.1 h with h | h
    · exact ih h
    · simp only [List.mem_singleton] at h
      subst h
      by_cases hk : k % 2 = 0 <;> simp [hk]

theorem countP_altColors (k : Nat) :
    (altColors k).countP (fun v => v == BLACK) = (k + 1) / 2 ∧
      (altColors k).countP (fun v => v == WHITE) = k / 2 := by
  induction k with
  | zero => simp [altColors]
  | succ k ih =>
    have tb1 : List.countP (fun v => v == BLACK) [BLACK] = 1 := by decide
    have tb0 : List.countP (fun v => v == BLACK) [WHITE] = 0 := by decide
    have tw1 : List.countP (fun v => v == WHITE) [WHITE] = 1 := by decide
    have tw0 : List.countP (fun v => v == WHITE) [BLACK] = 0 := by decide
    constructor
    · rw [altColors, List.countP_append, ih.1]
      by_cases hk : k % 2 = 0
      · rw [if_pos hk, tb1]; omega
      · rw [if_neg hk, tb0]; omega
    · rw [altColors, List.countP_append, ih.2]
      by_cases hk : k % 2 = 0
      · rw [if_pos hk, tw0]; omega
      · rw [if_neg hk, tw1]; omega

theorem length_ge9_of_five {b : ChessBoard} (hb : Inv b) {p : Int}
    (hp : p = BLACK ∨ p = WHITE) (ks : List Nat) (hnd : ks.Nodup)
    (hlen : ks.length = 5) (hall : ∀ a ∈ ks, stateGet b.state a = p) :
    9 ≤ b.state.length := by
  have hpE : p ≠ EMPTY := by rcases hp with rfl | rfl <;> decide
  have hsub : ks.map (fun a => (a, p)) ⊆ b.state.filter (fun e => e.2 == p) := by
    intro e he
    simp only [List.mem_map] at he
    obtain ⟨a, ha, rfl⟩ := he
    exact List.mem_filter.2 ⟨mem_of_stateGet (hall a ha) hpE, by simp⟩
  have hnd2 : (ks.map (fun a => (a, p))).Nodup :=
    List.Nodup.map (fun x y hxy => congrArg Prod.fst hxy) hnd
  have h5 : 5 ≤ (b.state.filter (fun e => e.2 == p)).length := by
    have := (List.subperm_of_subset hnd2 hsub).length_le
    simpa [hlen] using this
  have hcf : (b.state.filter (fun e => e.2 == p)).length
      = (b.state.map Prod.snd).countP (fun v => v == p) := by
    rw [← List.countP_eq_length_filter, List.countP_map]
    rfl
  rw [hcf, hb.vals_alt] at h5
  rcases hp with rfl | rfl
  · have := (countP_altColors b.state.length).1
    omega
  · have := (countP_altColors b.state.length).2
    omega

theorem scanState_some {b : ChessBoard} {l : List (Nat × Int)} {p : Int}
    (h : scanState b l = some p) : ∃ e ∈ l, checkAt b e.1 = true ∧ e.2 = p := by
  induction l with
  | nil => cases h
  | cons e rest ih =>
    by_cases hc : checkAt b e.1 = true
    · rw [scanState, if_pos hc] at h
      cases h
      exact ⟨e, List.mem_cons_self _ _, hc, rfl⟩
    · rw [scanState, if_neg hc] at h
      obtain ⟨e', he', hc', hp'⟩ := ih h
      exact ⟨e', List.mem_cons_of_mem _ he', hc', hp'⟩

theorem scanState_fires {b : ChessBoard} {l : List (Nat × Int)}
    (h : ∃ e ∈ l, checkAt b e.1 = true) : ∃ p, scanState b l = some p := by
  induction l with
  | nil => obtain ⟨e, he, _⟩ := h; cases he
  | cons e rest ih =>
    by_cases hc : checkAt b e.1 = true
    · exact ⟨e.2, by rw [scanState, if_pos hc]⟩
    · obtain ⟨e', he', hc'⟩ := h
      rcases List.mem_cons.1 he' with rfl | hmem
      · exact absurd hc' hc
      · obtain ⟨p, hp⟩ := ih ⟨e', hmem, hc'⟩
        exact ⟨p, by rw [scanState, if_neg hc]; exact hp⟩

theorem cellH (a n j : Nat) : a / n * n + (a % n + j) = a + j := by
  have hdm : n * (a / n) + a % n = a := Nat.div_add_mod a n
  calc a / n * n + (a % n + j) = n * (a / n) + a % n + j := by ring
    _ = a + j := by rw [hdm]

theorem cellV (a n j : Nat) : (a / n + j) * n + a % n = a + j * n := by
  have hdm : n * (a / n) + a % n = a := Nat.div_add_mod a n
  calc (a / n + j) * n + a % n = n * (a / n) + a % n + j * n := by ring
    _ = a + j * n := by rw [hdm]

theorem cellD (a n j : Nat) : (a / n + j) * n + (a % n + j) = a + j * (n + 1) := by
  have hdm : n * (a / n) + a % n = a := Nat.div_add_mod a n
  calc (a / n + j) * n + (a % n + j) = n * (a / n) + a % n + j * (n + 1) := by ring
    _ = a + j * (n + 1) := by rw [hdm]

theorem cellAnti (a n j : Nat) (hn : 1 ≤ n) (hj : j ≤ a % n) :
    (a / n + j) * n + (a % n - j) = a + j * (n - 1) := by
  have h1 := cellV a n j
  have hjn : j ≤ j * n := Nat.le_mul_of_pos_right j hn
  rw [Nat.mul_sub_one]
  omega

theorem checkAt_sound {b : ChessBoard} (hb : Inv b) {a : Nat} {p : Int}
    (hmem : (a, p) ∈ b.state) (hc : checkAt b a = true) : hasFiveRun b p := by
  have hga : stateGet b.state a = p := stateGet_eq_of_mem hb.keys_nodup hmem
  have halt : a < b.board_len * b.board_len :=
    hb.keys_lt a (List.mem_map.2 ⟨(a, p), hmem, rfl⟩)
  simp only [checkAt, uniqLine, List.all_cons, List.all_nil, Bool.and_true,
    Bool.or_eq_true, Bool.and_eq_true, decide_eq_true_eq, beq_iff_eq] at hc
  rcases hc with ((⟨hcol, h1, h2, h3, h4⟩ | ⟨hrow, h1, h2, h3, h4⟩) |
    ⟨⟨hrow, hcol⟩, h1, h2, h3, h4⟩) | ⟨⟨hrow, hcol⟩, h1, h2, h3, h4⟩
  · -- horizontal
    have hn5 : 5 ≤ b.board_len := le_trans (Nat.le_add_left 5 _) hcol
    have hnpos : 0 < b.board_len := by omega
    have hdiv : a / b.board_len < b.board_len := (Nat.div_lt_iff_lt_mul hnpos).2 halt
    have hall : ∀ j < 5, stateGet b.state (a + j) = p := by
      intro j hj
      interval_cases j
      · simpa using hga
      · exact h1.trans hga
      · exact h2.trans hga
      · exact h3.trans hga
      · exact h4.trans hga
    refine ⟨a / b.board_len, a % b.board_len, Or.inl ⟨hdiv, by omega, ?_⟩⟩
    intro k hk
    show stateGet b.state (a / b.board_len * b.board_len + (a % b.board_len + k)) = p
    rw [cellH]
    exact hall k hk
  · -- vertical
    have hn5 : 5 ≤ b.board_len := le_trans (Nat.le_add_left 5 _) hrow
    have hnpos : 0 < b.board_len := by omega
    have hmod : a % b.board_len < b.board_len := Nat.mod_lt a hnpos
    have hall : ∀ j < 5, stateGet b.state (a + j * b.board_len) = p := by
      intro j hj
      interval_cases j
      · simpa using hga
      · simpa using h1.trans hga
      · exact h2.trans hga
      · exact h3.trans hga
      · exact h4.trans hga
    refine ⟨a / b.board_len, a % b.board_len, Or.inr (Or.inl ⟨by omega, hmod, ?_⟩)⟩
    intro k hk
    show stateGet b.state ((a / b.board_len + k) * b.board_len + a % b.board_len) = p
    rw [cellV]
    exact hall k hk
  · -- main diagonal
    have hn5 : 5 ≤ b.board_len := le_trans (Nat.le_add_left 5 _) hrow
    have hall : ∀ j < 5, stateGet b.state (a + j * (b.board_len + 1)) = p := by
      intro j hj
      interval_cases j
      · simpa using hga
      · simpa using h1.trans hga
      · exact h2.trans hga
      · exact h3.trans hga
      · exact h4.trans hga
    refine ⟨a / b.board_len, a % b.board_len, Or.inr (Or.inr (Or.inl
      ⟨by omega, by omega, ?_⟩))⟩
    intro k hk
    show stateGet b.state
      ((a / b.board_len + k) * b.board_len + (a % b.board_len + k)) = p
    rw [cellD]
    exact hall k hk
  · -- anti-diagonal
    have hn5 : 5 ≤ b.board_len := le_trans (Nat.le_add_left 5 _) hrow
    have hnpos : 0 < b.board_len := by omega
    have hmod : a % b.board_len < b.board_len := Nat.mod_lt a hnpos
    have hall : ∀ j < 5, stateGet b.state (a + j * (b.board_len - 1)) = p := by
      intro j hj
      interval_cases j
      · simpa using hga
      · simpa using h1.trans hga
      · exact h2.trans hga
      · exact h3.trans hga
      · exact h4.trans hga
    refine ⟨a / b.board_len, a % b.board_len, Or.inr (Or.inr (Or.inr
      ⟨by omega, hcol, hmod, ?_⟩))⟩
    intro k hk
    show stateGet b.state
      ((a / b.board_len + k) * b.board_len + (a % b.board_len - k)) = p
    rw [cellAnti a b.board_len k (by omega) (by omega)]
    exact hall k hk

theorem checkAt_complete {b : ChessBoard} {p : Int} (hpE : p ≠ EMPTY)
    (hrun : hasFiveRun b p) : ∃ e ∈ b.state, checkAt b e.1 = true := by
  obtain ⟨r, c, hcase⟩ := hrun
  rcases hcase with ⟨hr, hc4, hk⟩ | ⟨hr4, hc, hk⟩ | ⟨hr4, hc4, hk⟩ | ⟨hr4, hc4, hclt, hk⟩
  · -- horizontal: start cell r * n + c
    have hn5 : 5 ≤ b.board_len := by omega
    have hclt : c < b.board_len := by omega
    have hmod : (r * b.board_len + c) % b.board_len = c := by
      rw [mul_comm, Nat.mul_add_mod, Nat.mod_eq_of_lt hclt]
    have hdiv : (r * b.board_len + c) / b.board_len = r := by
      rw [mul_comm, Nat.mul_add_div (by omega), Nat.div_eq_of_lt hclt, Nat.add_zero]
    have hcell : ∀ j < 5, stateGet b.state (r * b.board_len + c + j) = p := by
      intro j hj
      have := hk j hj
      rw [owner] at this
      rw [← Nat.add_assoc] at this
      exact this
    have g0 : stateGet b.state (r * b.board_len + c) = p := by
      simpa using hcell 0 (by norm_num)
    refine ⟨(r * b.board_len + c, p), mem_of_stateGet g0 hpE, ?_⟩
    simp only [checkAt, uniqLine, List.all_cons, List.all_nil, Bool.and_true,
      Bool.or_eq_true, Bool.and_eq_true, decide_eq_true_eq, beq_iff_eq]
    refine Or.inl (Or.inl (Or.inl ⟨by omega, ?_, ?_, ?_, ?_⟩)) <;>
      rw [g0] <;> [exact hcell 1 (by norm_num); exact hcell 2 (by norm_num);
        exact hcell 3 (by norm_num); exact hcell 4 (by norm_num)]
  · -- vertical
    have hn5 : 5 ≤ b.board_len := by omega
    have hmod : (r * b.board_len + c) % b.board_len = c := by
      rw [mul_comm, Nat.mul_add_mod, Nat.mod_eq_of_lt hc]
    have hdiv : (r * b.board_len + c) / b.board_len = r := by
      rw [mul_comm, Nat.mul_add_div (by omega), Nat.div_eq_of_lt hc, Nat.add_zero]
    have hcell : ∀ j < 5, stateGet b.state (r * b.board_len + c + j * b.board_len) = p := by
      intro j hj
      have := hk j hj
      rw [owner] at this
      have harith : (r + j) * b.board_len + c = r * b.board_len + c + j * b.board_len := by
        ring
      rw [harith] at this
      exact this
    have g0 : stateGet b.state (r * b.board_len + c) = p := by
      simpa using hcell 0 (by norm_num)
    refine ⟨(r * b.board_len + c, p), mem_of_stateGet g0 hpE, ?_⟩
    simp only [checkAt, uniqLine, List.all_cons, List.all_nil, Bool.and_true,
      Bool.or_eq_true, Bool.and_eq_true, decide_eq_true_eq, beq_iff_eq]
    refine Or.inl (Or.inl (Or.inr ⟨by omega, ?_, ?_, ?_, ?_⟩)) <;>
      rw [g0] <;> [simpa using hcell 1 (by norm_num); exact hcell 2 (by norm_num);
        exact hcell 3 (by norm_num); exact hcell 4 (by norm_num)]
  · -- main diagonal
    have hn5 : 5 ≤ b.board_len := by omega
    have hclt : c < b.board_len := by omega
    have hmod : (r * b.board_len + c) % b.board_len = c := by
      rw [mul_comm, Nat.mul_add_mod, Nat.mod_eq_of_lt hclt]
    have hdiv : (r * b.board_len + c) / b.board_len = r := by
      rw [mul_comm, Nat.mul_add_div (by omega), Nat.div_eq_of_lt hclt, Nat.add_zero]
    have hcell : ∀ j < 5,
        stateGet b.state (r * b.board_len + c + j * (b.board_len + 1)) = p := by
      intro j hj
      have := hk j hj
      rw [owner] at this
      have harith : (r + j) * b.board_len + (c + j)
          = r * b.board_len + c + j * (b.board_len + 1) := by ring
      rw [harith] at this
      exact this
    have g0 : stateGet b.state (r * b.board_len + c) = p := by
      simpa using hcell 0 (by norm_num)
    refine ⟨(r * b.board_len + c, p), mem_of_stateGet g0 hpE, ?_⟩
    simp only [checkAt, uniqLine, List.all_cons, List.all_nil, Bool.and_true,
      Bool.or_eq_true, Bool.and_eq_true, decide_eq_true_eq, beq_iff_eq]
    refine Or.inl (Or.inr ⟨⟨by omega, by omega⟩, ?_, ?_, ?_, ?_⟩) <;>
      rw [g0] <;> [simpa using hcell 1 (by norm_num); exact hcell 2 (by norm_num);
        exact hcell 3 (by norm_num); exact hcell 4 (by norm_num)]
  · -- anti-diagonal
    have hn5 : 5 ≤ b.board_len := by omega
    have hmod : (r * b.board_len + c) % b.board_len = c := by
      rw [mul_comm, Nat.mul_add_mod, Nat.mod_eq_of_lt hclt]
    have hdiv : (r * b.board_len + c) / b.board_len = r := by
      rw [mul_comm, Nat.mul_add_div (by omega), Nat.div_eq_of_lt hclt, Nat.add_zero]
    have hcell : ∀ j, j < 5 → j ≤ c →
        stateGet b.state (r * b.board_len + c + j * (b.board_len - 1)) = p := by
      intro j hj hjc
      have := hk j hj
      rw [owner] at this
      have hX : (r + j) * b.board_len = r * b.board_len + j * b.board_len := by ring
      have hjn : j ≤ j * b.board_len := Nat.le_mul_of_pos_right j (by omega)
      have harith : (r + j) * b.board_len + (c - j)
          = r * b.board_len + c + j * (b.board_len - 1) := by
        rw [Nat.mul_sub_one]
        omega
      rw [harith] at this
      exact this
    have g0 : stateGet b.state (r * b.board_len + c) = p := by
      simpa using hcell 0 (by norm_num) (by omega)
    refine ⟨(r * b.board_len + c, p), mem_of_stateGet g0 hpE, ?_⟩
    simp only [checkAt, uniqLine, List.all_cons, List.all_nil, Bool.and_true,
      Bool.or_eq_true, Bool.and_eq_true, decide_eq_true_eq, beq_iff_eq]
    refine Or.inr ⟨⟨by omega, by omega⟩, ?_, ?_, ?_, ?_⟩ <;>
      rw [g0] <;> [simpa using hcell 1 (by norm_num) (by omega);
        exact hcell 2 (by norm_num) (by omega); exact hcell 3 (by norm_num) (by omega);
        exact hcell 4 (by norm_num) (by omega)]

theorem length_ge9_of_run {b : ChessBoard} (hb : Inv b) {p : Int}
    (hp : p = BLACK ∨ p = WHITE) (hrun : hasFiveRun b p) : 9 ≤ b.state.length := by
  obtain ⟨r, c, hcase⟩ := hrun
  rcases hcase with ⟨hr, hc4, hk⟩ | ⟨hr4, hc, hk⟩ | ⟨hr4, hc4, hk⟩ | ⟨hr4, hc4, hclt, hk⟩
  · -- horizontal
    refine length_ge9_of_five hb hp
      [r * b.board_len + (c + 0), r * b.board_len + (c + 1), r * b.board_len + (c + 2),
        r * b.board_len + (c + 3), r * b.board_len + (c + 4)] ?_ rfl ?_
    · simp only [List.nodup_cons, List.mem_cons, List.mem_singleton, List.not_mem_nil,
        List.nodup_nil, or_false, not_or, not_false_iff, and_true]
      omega
    · intro x hx
      simp only [List.mem_cons, List.not_mem_nil, or_false] at hx
      rcases hx with rfl | rfl | rfl | rfl | rfl
      · exact hk 0 (by norm_num)
      · exact hk 1 (by norm_num)
      · exact hk 2 (by norm_num)
      · exact hk 3 (by norm_num)
      · exact hk 4 (by norm_num)
  · -- vertical
    have hdist : ∀ j : Nat, (r + j) * b.board_len = r * b.board_len + j * b.board_len :=
      fun j => by ring
    have hn5 : 5 ≤ b.board_len := by omega
    refine length_ge9_of_five hb hp
      [(r + 0) * b.board_len + c, (r + 1) * b.board_len + c, (r + 2) * b.board_len + c,
        (r + 3) * b.board_len + c, (r + 4) * b.board_len + c] ?_ rfl ?_
    · have e0 := hdist 0
      have e1 := hdist 1
      have e2 := hdist 2
      have e3 := hdist 3
      have e4 := hdist 4
      simp only [List.nodup_cons, List.mem_cons, List.not_mem_nil, or_false, not_or,
        List.nodup_nil, not_false_iff, and_true]
      omega
    · intro x hx
      simp only [List.mem_cons, List.not_mem_nil, or_false] at hx
      rcases hx with rfl | rfl | rfl | rfl | rfl
      · exact hk 0 (by norm_num)
      · exact hk 1 (by norm_num)
      · exact hk 2 (by norm_num)
      · exact hk 3 (by norm_num)
      · exact hk 4 (by norm_num)
  · -- main diagonal
    have hdist : ∀ j : Nat, (r + j) * b.board_len = r * b.board_len + j * b.board_len :=
      fun j => by ring
    have hn5 : 5 ≤ b.board_len := by omega
    refine length_ge9_of_five hb hp
      [(r + 0) * b.board_len + (c + 0), (r + 1) * b.board_len + (c + 1),
        (r + 2) * b.board_len + (c + 2), (r + 3) * b.board_len + (c + 3),
        (r + 4) * b.board_len + (c + 4)] ?_ rfl ?_
    · have e0 := hdist 0
      have e1 := hdist 1
      have e2 := hdist 2
      have e3 := hdist 3
      have e4 := hdist 4
      simp only [List.nodup_cons, List.mem_cons, List.not_mem_nil, or_false, not_or,
        List.nodup_nil, not_false_iff, and_true]
      omega
    · intro x hx
      simp only [List.mem_cons, List.not_mem_nil, or_false] at hx
      rcases hx with rfl | rfl | rfl | rfl | rfl
      · exact hk 0 (by norm_num)
      · exact hk 1 (by norm_num)
      · exact hk 2 (by norm_num)
      · exact hk 3 (by norm_num)
      · exact hk 4 (by norm_num)
  · -- anti-diagonal
    have hdist : ∀ j : Nat, (r + j) * b.board_len = r * b.board_len + j * b.board_len :=
      fun j => by ring
    have hn5 : 5 ≤ b.board_len := by omega
    refine length_ge9_of_five hb hp
      [(r + 0) * b.board_len + (c - 0), (r + 1) * b.board_len + (c - 1),
        (r + 2) * b.board_len + (c - 2), (r + 3) * b.board_len + (c - 3),
        (r + 4) * b.board_len + (c - 4)] ?_ rfl ?_
    · have e0 := hdist 0
      have e1 := hdist 1
      have e2 := hdist 2
      have e3 := hdist 3
      have e4 := hdist 4
      simp only [List.nodup_cons, List.mem_cons, List.not_mem_nil, or_false, not_or,
        List.nodup_nil, not_false_iff, and_true]
      omega
    · intro x hx
      simp only [List.mem_cons, List.not_mem_nil, or_false] at hx
      rcases hx with rfl | rfl | rfl | rfl | rfl
      · exact hk 0 (by norm_num)
      · exact hk 1 (by norm_num)
      · exact hk 2 (by norm_num)
      · exact hk 3 (by norm_num)
      · exact hk 4 (by norm_num)

theorem igo_winner_run {b : ChessBoard} (hb : Inv b) {p : Int}
    (h : (is_game_over b).2 = some p) :
    is_game_over b = (true, some p) ∧ (p = BLACK ∨ p = WHITE) ∧ hasFiveRun b p := by
  by_cases h9 : b.state.length < 9
  · rw [is_game_over, if_pos h9] at h
    cases h
  · cases hs : scanState b b.state with
    | none =>
      rw [is_game_over, if_neg h9, hs] at h
      by_cases ha : b.available_actions.isEmpty <;> simp [ha] at h
    | some q =>
      have higo : is_game_over b = (true, some q) := by
        rw [is_game_over, if_neg h9, hs]
      have hqp : q = p := by
        rw [higo] at h
        simpa using h
      obtain ⟨⟨a, pe⟩, he, hce, hep⟩ := scanState_some hs
      simp only at hce hep
      rw [hep] at he
      have hrun : hasFiveRun b q := checkAt_sound hb he hce
      have hmem : q ∈ b.state.map Prod.snd := List.mem_map.2 ⟨(a, q), he, rfl⟩
      rw [hb.vals_alt] at hmem
      rw [← hqp]
      exact ⟨higo, altColors_mem hmem, hrun⟩

theorem igo_run_winner {b : ChessBoard} (hb : Inv b) {p : Int}
    (hp : p = BLACK ∨ p = WHITE) (hrun : hasFiveRun b p) :
    ∃ q, is_game_over b = (true, some q) ∧ (q = BLACK ∨ q = WHITE) ∧ hasFiveRun b q := by
  have h9 : ¬b.state.length < 9 := by
    have := length_ge9_of_run hb hp hrun
    omega
  have hpE : p ≠ EMPTY := by rcases hp with rfl | rfl <;> decide
  obtain ⟨q, hq⟩ := scanState_fires (checkAt_complete hpE hrun)
  refine ⟨q, ?_, ?_⟩
  · rw [is_game_over, if_neg h9, hq]
  · obtain ⟨⟨a, pe⟩, he, hce, hep⟩ := scanState_some hq
    simp only at hce hep
    rw [hep] at he
    have hrunq : hasFiveRun b q := checkAt_sound hb he hce
    have hmem : q ∈ b.state.map Prod.snd := List.mem_map.2 ⟨(a, q), he, rfl⟩
    rw [hb.vals_alt] at hmem
    exact ⟨altColors_mem hmem, hrunq⟩

theorem applyMoves_inv {b b' : ChessBoard} {ms : List Int} (hb : Inv b)
    (h : applyMoves b ms = some b') :
    Inv b' ∧ b'.board_len = b.board_len ∧
      b'.state.length = b.state.length + ms.length := by
  induction ms generalizing b with
  | nil => simp only [applyMoves] at h; cases h; exact ⟨hb, rfl, by simp⟩
  | cons m ms ih =>
    simp only [applyMoves] at h
    cases hd : do_action b m with
    | ok b1 =>
      rw [hd] at h
      obtain ⟨hinv1, hlen1, hslen1, _⟩ := inv_do_action hb hd
      obtain ⟨hinv', hblen', hslen'⟩ := ih hinv1 h
      refine ⟨hinv', hblen'.trans hlen1, ?_⟩
      rw [hslen', hslen1]
      simp only [List.length_cons]
      omega
    | error b1 => rw [hd] at h; cases h

/-- C1: on a reachable board, `is_game_over` reports a win exactly when some
player has five contiguous stones in one of the four directions inside the
board: a reported winner always owns a genuine five-run (so no short or
interrupted run is ever reported), a five-run always makes the game reported
as won by a player owning a five-run, and when the opponent has no five-run
the reported winner is exactly the player with the run. -/
theorem c1_is_game_over_five_run {n : Nat} {b : ChessBoard} (hb : Reachable n b) :
    (∀ p : Int, (is_game_over b).2 = some p →
      is_game_over b = (true, some p) ∧ (p = BLACK ∨ p = WHITE) ∧ hasFiveRun b p) ∧
    ((∃ p, (p = BLACK ∨ p = WHITE) ∧ hasFiveRun b p) →
      ∃ q, is_game_over b = (true, some q) ∧ (q = BLACK ∨ q = WHITE) ∧ hasFiveRun b q) ∧
    (∀ p : Int, (p = BLACK ∨ p = WHITE) → ¬hasFiveRun b (BLACK + WHITE - p) →
      ((is_game_over b).2 = some p ↔ hasFiveRun b p)) := by
  obtain ⟨hinv, -⟩ := inv_reachable hb
  refine ⟨fun p hp => igo_winner_run hinv hp,
    fun ⟨p, hp, hrun⟩ => igo_run_winner hinv hp hrun, ?_⟩
  intro p hp hnopp
  constructor
  · intro h
    exact (igo_winner_run hinv h).2.2
  · intro hrun
    obtain ⟨q, higo, hq, hrunq⟩ := igo_run_winner hinv hp hrun
    have hqeq : q = p := by
      rcases hp with rfl | rfl <;> rcases hq with rfl | rfl
      · rfl
      · refine absurd ?_ hnopp
        have he : BLACK + WHITE - BLACK = WHITE := by decide
        rw [he]
        exact hrunq
      · refine absurd ?_ hnopp
        have he : BLACK + WHITE - WHITE = BLACK := by decide
        rw [he]
        exact hrunq
      · rfl
    rw [higo, hqeq]

theorem c1_witness :
    Reachable 9 (boardAfter 9 [0, 9, 1, 10, 2, 11, 3, 12, 4]) ∧
    ((∀ p : Int, (is_game_over (boardAfter 9 [0, 9, 1, 10, 2, 11, 3, 12, 4])).2 = some p →
        is_game_over (boardAfter 9 [0, 9, 1, 10, 2, 11, 3, 12, 4]) = (true, some p) ∧
          (p = BLACK ∨ p = WHITE) ∧ hasFiveRun (boardAfter 9 [0, 9, 1, 10, 2, 11, 3, 12, 4]) p) ∧
      ((∃ p, (p = BLACK ∨ p = WHITE) ∧ hasFiveRun (boardAfter 9 [0, 9, 1, 10, 2, 11, 3, 12, 4]) p) →
        ∃ q, is_game_over (boardAfter 9 [0, 9, 1, 10, 2, 11, 3, 12, 4]) = (true, some q) ∧
          (q = BLACK ∨ q = WHITE) ∧ hasFiveRun (boardAfter 9 [0, 9, 1, 10, 2, 11, 3, 12, 4]) q) ∧
      (∀ p : Int, (p = BLACK ∨ p = WHITE) →
        ¬hasFiveRun (boardAfter 9 [0, 9, 1, 10, 2, 11, 3, 12, 4]) (BLACK + WHITE - p) →
        ((is_game_over (boardAfter 9 [0, 9, 1, 10, 2, 11, 3, 12, 4])).2 = some p ↔
          hasFiveRun (boardAfter 9 [0, 9, 1, 10, 2, 11, 3, 12, 4]) p))) := by
  have happ : applyMoves (newBoard 9) [0, 9, 1, 10, 2, 11, 3, 12, 4]
      = some (boardAfter 9 [0, 9, 1, 10, 2, 11, 3, 12, 4]) := rfl
  have hreach : Reachable 9 (boardAfter 9 [0, 9, 1, 10, 2, 11, 3, 12, 4]) :=
    reachable_applyMoves Reachable.base happ
  exact ⟨hreach, c1_is_game_over_five_run hreach⟩

/-- C6: `is_game_over` returns (not over, no winner) on any board holding
fewer than 9 stones in total, whatever the configuration; and on a 9 × 9
board the sequence BLACK 0,1,2,3,4 interleaved with WHITE 9,10,11,12 ends
with (over, BLACK) right after BLACK's fifth stone, the ninth stone in
total. -/
theorem c6_nine_move_floor :
    (∀ b : ChessBoard, b.state.length < 9 → is_game_over b = (false, none)) ∧
    applyMoves (newBoard 9) [0, 9, 1, 10, 2, 11, 3, 12, 4]
      = some (boardAfter 9 [0, 9, 1, 10, 2, 11, 3, 12, 4]) ∧
    (boardAfter 9 [0, 9, 1, 10, 2, 11, 3, 12, 4]).state.length = 9 ∧
    is_game_over (boardAfter 9 [0, 9, 1, 10, 2, 11, 3, 12, 4]) = (true, some BLACK) := by
  refine ⟨fun b hb => ?_, rfl, rfl, rfl⟩
  rw [is_game_over, if_pos hb]

theorem c6_witness :
    (newBoard 9).state.length < 9 ∧ is_game_over (newBoard 9) = (false, none) :=
  ⟨by decide, c6_nine_move_floor.1 (newBoard 9) (by decide)⟩

/-- C7: after any sequence of `k` legal moves from an empty `n × n` board,
the occupied cells are distinct and in `[0, n²)`, there are exactly `k` of
them, the legal set is exactly the complement of the occupied set with
`n² - k` elements, and the player to move strictly alternates (it is
determined by the parity of `k`, BLACK first). -/
theorem c7_board_invariants {n : Nat} {ms : List Int} {b : ChessBoard}
    (h : applyMoves (newBoard n) ms = some b) :
    (b.state.map Prod.fst).Nodup ∧
    (∀ a ∈ b.state.map Prod.fst, a < n * n) ∧
    b.state.length = ms.length ∧
    (∀ a : Nat, a ∈ b.available_actions ↔ a < n * n ∧ a ∉ b.state.map Prod.fst) ∧
    b.available_actions.length = n * n - ms.length ∧
    b.current_player = (if ms.length % 2 = 0 then BLACK else WHITE) := by
  obtain ⟨hinv, hblen, hslen⟩ := applyMoves_inv (inv_newBoard n) h
  have hb2 : b.board_len = n := by
    rw [hblen]
    rfl
  have hslen' : b.state.length = ms.length := by
    rw [hslen]
    simp [newBoard, initBoard]
  refine ⟨hinv.keys_nodup, ?_, hslen', ?_, ?_, ?_⟩
  · intro a ha
    have := hinv.keys_lt a ha
    rwa [hb2] at this
  · intro a
    have := hinv.avail_iff a
    rwa [hb2] at this
  · have := hinv.avail_len
    rw [hb2, hslen'] at this
    omega
  · rw [hinv.player_parity, hslen']

theorem c7_witness :
    applyMoves (newBoard 2) [0, 3] = some (boardAfter 2 [0, 3]) ∧
    (((boardAfter 2 [0, 3]).state.map Prod.fst).Nodup ∧
      (∀ a ∈ (boardAfter 2 [0, 3]).state.map Prod.fst, a < 2 * 2) ∧
      (boardAfter 2 [0, 3]).state.length = [(0 : Int), 3].length ∧
      (∀ a : Nat, a ∈ (boardAfter 2 [0, 3]).available_actions ↔
        a < 2 * 2 ∧ a ∉ (boardAfter 2 [0, 3]).state.map Prod.fst) ∧
      (boardAfter 2 [0, 3]).available_actions.length = 2 * 2 - [(0 : Int), 3].length ∧
      (boardAfter 2 [0, 3]).current_player
        = (if [(0 : Int), 3].length % 2 = 0 then BLACK else WHITE)) :=
  ⟨rfl, c7_board_invariants rfl⟩

/-- C2 counterexample: calling `do_action` on the fresh 9 × 9 board with the
out-of-range index 81 raises, but the state at the raise point has its
`previous_action` overwritten with 81, whereas it was `None` before the
call: the failure is not mutation-free. -/
theorem c2_counterexample :
    do_action (newBoard 9) 81
      = Except.error { newBoard 9 with previous_action := some 81 } ∧
    (newBoard 9).previous_action = none ∧
    ({ newBoard 9 with previous_action := some 81 } : ChessBoard).previous_action
      = some 81 := by
  refine ⟨?_, rfl, rfl⟩
  rfl

/-- C2 amended: on a reachable board, `do_action` with an out-of-range or
already-occupied index always raises, and the state at the raise point has
the same occupied-cell mapping, legal set and player to move, but its
`previous_action` record has already been overwritten with the attempted
action. -/
theorem c2_illegal_do_action {n : Nat} {b : ChessBoard} (hb : Reachable n b) (a : Int)
    (hill : a < 0 ∨ (n * n : Int) ≤ a ∨ (0 ≤ a ∧ a.toNat ∈ b.state.map Prod.fst)) :
    do_action b a = Except.error { b with previous_action := some a } := by
  obtain ⟨hinv, hlen⟩ := inv_reachable hb
  have hnot : ¬(0 ≤ a ∧ a.toNat ∈ b.available_actions) := by
    rintro ⟨ha0, hmem⟩
    rw [hinv.avail_iff] at hmem
    rcases hill with h | h | h
    · omega
    · have h1 : a.toNat < b.board_len * b.board_len := hmem.1
      rw [hlen] at h1
      omega
    · exact hmem.2 h.2
  rw [do_action, if_neg hnot]

theorem c2_witness :
    Reachable 9 (newBoard 9) ∧
    do_action (newBoard 9) 81
      = Except.error { newBoard 9 with previous_action := some 81 } :=
  ⟨Reachable.base,
    c2_illegal_do_action Reachable.base 81 (Or.inr (Or.inl (by decide)))⟩

/-- C8 counterexample: on a fresh 9 × 9 board, `do_action_` with the
coordinate pair (0, 10) — whose column 10 is out of range — returns `True`
and mutates the board, placing a BLACK stone at flat cell 10 (that is, at
board position (1, 1)): the out-of-range pair is not rejected because the
flattened index `0 * 9 + 10 = 10` happens to be a legal cell. -/
theorem c8_counterexample :
    (do_action_ (newBoard 9) (0, 10)).2 = true ∧
    ¬((0 : Int) ≤ 10 ∧ (10 : Int) < 9) ∧
    stateGet (do_action_ (newBoard 9) (0, 10)).1.state 10 = BLACK ∧
    (do_action_ (newBoard 9) (0, 10)).1 ≠ newBoard 9 := by
  refine ⟨rfl, by decide, rfl, by decide⟩

/-- C8 amended: `do_action_` never raises; it returns `True` and applies the
move exactly when the flattened index `pos[0] * board_len + pos[1]` is
non-negative and currently available, and returns `False` leaving the board
unchanged otherwise.  Every in-range unoccupied pair is accepted (on a board
satisfying the invariant), but an out-of-range pair whose flattened index
wraps onto an available cell is also accepted. -/
theorem c8_do_action_boolean (b : ChessBoard) (pos : Int × Int) :
    (¬(0 ≤ pos.1 * (b.board_len : Int) + pos.2 ∧
        (pos.1 * (b.board_len : Int) + pos.2).toNat ∈ b.available_actions) →
      do_action_ b pos = (b, false)) ∧
    ((0 ≤ pos.1 * (b.board_len : Int) + pos.2 ∧
        (pos.1 * (b.board_len : Int) + pos.2).toNat ∈ b.available_actions) →
      ∃ b', do_action b (pos.1 * (b.board_len : Int) + pos.2) = Except.ok b' ∧
        do_action_ b pos = (b', true)) ∧
    (Inv b → 0 ≤ pos.1 → pos.1 < (b.board_len : Int) → 0 ≤ pos.2 →
      pos.2 < (b.board_len : Int) →
      (pos.1 * (b.board_len : Int) + pos.2).toNat ∉ b.state.map Prod.fst →
      (do_action_ b pos).2 = true) := by
  refine ⟨fun h => ?_, fun h => ?_, fun hinv h1 h2 h3 h4 h5 => ?_⟩
  · rw [do_action_, if_neg h]
  · refine ⟨{ b with
        previous_action := some (pos.1 * (b.board_len : Int) + pos.2)
        available_actions :=
          b.available_actions.erase (pos.1 * (b.board_len : Int) + pos.2).toNat
        state := odSet b.state (pos.1 * (b.board_len : Int) + pos.2).toNat b.current_player
        current_player := WHITE + BLACK - b.current_player }, ?_, ?_⟩
    · rw [do_action, if_pos h]
    · rw [do_action_, if_pos h, do_action, if_pos h]
  · have hflat0 : 0 ≤ pos.1 * (b.board_len : Int) + pos.2 := by positivity
    have hlt : pos.1 * (b.board_len : Int) + pos.2
        < (b.board_len : Int) * b.board_len := by
      have hstep : pos.1 * (b.board_len : Int) ≤ ((b.board_len : Int) - 1) * b.board_len :=
        mul_le_mul_of_nonneg_right (by omega) (by positivity)
      nlinarith
    have htoNat : (pos.1 * (b.board_len : Int) + pos.2).toNat
        < b.board_len * b.board_len := by omega
    have hmem : (pos.1 * (b.board_len : Int) + pos.2).toNat ∈ b.available_actions :=
      (hinv.avail_iff _).2 ⟨htoNat, h5⟩
    rw [do_action_, if_pos ⟨hflat0, hmem⟩, do_action, if_pos ⟨hflat0, hmem⟩]

theorem getD_map_range {α : Type} (n : Nat) (f : Nat → α) (d : α) (i : Nat)
    (h : i < n) : ((List.range n).map f).getD i d = f i := by
  rw [List.getD_eq_getElem?_getD, List.getElem?_map, List.getElem?_range h]
  rfl

/-- The current player's moves in chronological (insertion) order. -/
def ownMoves (b : ChessBoard) : List Nat :=
  (b.state.filter (fun e => e.2 == b.current_player)).map (fun e => e.1)

/-- The opponent's moves in chronological (insertion) order. -/
def oppMoves (b : ChessBoard) : List Nat :=
  (b.state.filter (fun e => !(e.2 == b.current_player))).map (fun e => e.1)

/-- The current player's stones as they stood `i` of their own turns ago:
all their moves except the `i` most recent ones. -/
def olderOwn (b : ChessBoard) (i : Nat) : List Nat :=
  (ownMoves b).take ((ownMoves b).length - i)

/-- The opponent's stones as they stood `i` of their turns ago. -/
def olderOpp (b : ChessBoard) (i : Nat) : List Nat :=
  (oppMoves b).take ((oppMoves b).length - i)

theorem gfp_entry_even (b : ChessBoard) (i idx : Nat) (hi : i < 4)
    (hidx : idx < b.board_len * b.board_len) :
    planeEntry (get_feature_planes b) (2 * i) idx
      = if idx ∈ olderOwn b i then 1 else 0 := by
  have hdrop : ((b.state.reverse.filter (fun e => e.2 == b.current_player)).map
      (fun e => e.1)).drop i = (olderOwn b i).reverse := by
    rw [List.filter_reverse, List.map_reverse, List.drop_reverse]
    rfl
  have h8 : ((2 * i) == 8) = false := by
    simp only [beq_eq_false_iff_ne, ne_eq]
    omega
  have hmod : ((2 * i) % 2 == 0) = true := by
    simp [Nat.mul_mod_right]
  have hdiv : 2 * i / 2 = i := by omega
  rw [planeEntry]
  simp only [get_feature_planes]
  rw [getD_map_range 9 _ [] (2 * i) (by omega)]
  rw [h8]
  simp only [Bool.false_eq_true, if_false, hmod, if_true, hdiv, hdrop]
  rw [getD_map_range _ _ 0 idx hidx]
  by_cases hmem : idx ∈ olderOwn b i
  · rw [if_pos (List.elem_iff.2 (List.mem_reverse.2 hmem)), if_pos hmem]
  · rw [if_neg ?hc, if_neg hmem]
    case hc =>
      intro hcon
      exact hmem (List.mem_reverse.1 (List.elem_iff.1 hcon))

theorem gfp_entry_odd (b : ChessBoard) (i idx : Nat) (hi : i < 4)
    (hidx : idx < b.board_len * b.board_len) :
    planeEntry (get_feature_planes b) (2 * i + 1) idx
      = if idx ∈ olderOpp b i then 1 else 0 := by
  have hdrop : ((b.state.reverse.filter (fun e => !(e.2 == b.current_player))).map
      (fun e => e.1)).drop i = (olderOpp b i).reverse := by
    rw [List.filter_reverse, List.map_reverse, List.drop_reverse]
    rfl
  have h8 : ((2 * i + 1) == 8) = false := by
    simp only [beq_eq_false_iff_ne, ne_eq]
    omega
  have hmod : ((2 * i + 1) % 2 == 0) = false := by
    simp only [beq_eq_false_iff_ne, ne_eq]
    omega
  have hdiv : (2 * i + 1) / 2 = i := by omega
  rw [planeEntry]
  simp only [get_feature_planes]
  rw [getD_map_range 9 _ [] (2 * i + 1) (by omega)]
  rw [h8]
  simp only [Bool.false_eq_true, if_false, hmod, hdiv, hdrop]
  rw [getD_map_range _ _ 0 idx hidx]
  by_cases hmem : idx ∈ olderOpp b i
  · rw [if_pos (List.elem_iff.2 (List.mem_reverse.2 hmem)), if_pos hmem]
  · rw [if_neg ?hc, if_neg hmem]
    case hc =>
      intro hcon
      exact hmem (List.mem_reverse.1 (List.elem_iff.1 hcon))

theorem gfp_entry_color (b : ChessBoard) (idx : Nat)
    (hidx : idx < b.board_len * b.board_len) :
    planeEntry (get_feature_planes b) 8 idx = b.current_player := by
  rw [planeEntry]
  simp only [get_feature_planes]
  rw [getD_map_range 9 _ [] 8 (by omega)]
  rw [show ((8 : Nat) == 8) = true from rfl]
  simp only [if_true]
  rw [getD_map_range _ _ 0 idx hidx]

/-- C3 counterexample: after the moves BLACK 0, WHITE 1, BLACK 2, WHITE 3 on
a 9 × 9 board, BLACK is to move and owns cells 0 and 2 (so cell 2 was placed
in one of BLACK's 2 most recent turns), yet channel 2 of the feature tensor
is 0 at cell 2: channel `2i` does not include the stones of the most recent
`i+1` of the current player's turns — it excludes the `i` most recent. -/
theorem c3_counterexample :
    (boardAfter 9 [0, 1, 2, 3]).current_player = BLACK ∧
    stateGet (boardAfter 9 [0, 1, 2, 3]).state 2 = BLACK ∧
    ownMoves (boardAfter 9 [0, 1, 2, 3]) = [0, 2] ∧
    planeEntry (get_feature_planes (boardAfter 9 [0, 1, 2, 3])) 2 2 = 0 :=
  ⟨rfl, rfl, rfl, rfl⟩

/-- C3 amended: for `i = 0..3`, channel `2i` of the feature tensor is the
binary mask of the current player's stones excluding their `i` most recent
moves (their position as of `i` of their own turns ago — a cumulative
indicator over increasingly older history), channel `2i+1` is the analogous
mask for the opponent, and the final channel is the constant plane of the
current player's color indicator. -/
theorem c3_feature_planes (b : ChessBoard) (i idx : Nat) (hi : i < 4)
    (hidx : idx < b.board_len * b.board_len) :
    (planeEntry (get_feature_planes b) (2 * i) idx
      = if idx ∈ olderOwn b i then 1 else 0) ∧
    (planeEntry (get_feature_planes b) (2 * i + 1) idx
      = if idx ∈ olderOpp b i then 1 else 0) ∧
    planeEntry (get_feature_planes b) 8 idx = b.current_player :=
  ⟨gfp_entry_even b i idx hi hidx, gfp_entry_odd b i idx hi hidx,
    gfp_entry_color b idx hidx⟩

theorem c3_witness :
    ((1 : Nat) < 4 ∧
      (2 : Nat) < (boardAfter 9 [0, 1, 2, 3]).board_len * (boardAfter 9 [0, 1, 2, 3]).board_len) ∧
    ((planeEntry (get_feature_planes (boardAfter 9 [0, 1, 2, 3])) (2 * 1) 2
        = if 2 ∈ olderOwn (boardAfter 9 [0, 1, 2, 3]) 1 then 1 else 0) ∧
      (planeEntry (get_feature_planes (boardAfter 9 [0, 1, 2, 3])) (2 * 1 + 1) 2
        = if 2 ∈ olderOpp (boardAfter 9 [0, 1, 2, 3]) 1 then 1 else 0) ∧
      planeEntry (get_feature_planes (boardAfter 9 [0, 1, 2, 3])) 8 2
        = (boardAfter 9 [0, 1, 2, 3]).current_player) :=
  ⟨⟨by decide, by decide⟩,
    c3_feature_planes (boardAfter 9 [0, 1, 2, 3]) 1 2 (by decide) (by decide)⟩

/-- C10: `get_feature_planes` always returns exactly 9 planes, each with
`board_len²` entries (the buffer later viewed as `(9, board_len,
board_len)`), whatever board it is given; the constructor rejects every even
`n_feature_planes` and accepts every odd one, storing it; and the feature
encoding ignores the stored `n_feature_planes` completely. -/
theorem c10_nine_planes :
    (∀ b : ChessBoard, (get_feature_planes b).length = 9 ∧
      ∀ pl ∈ get_feature_planes b, pl.length = b.board_len * b.board_len) ∧
    (∀ bl k : Nat, k % 2 = 0 →
      chessBoardInit bl k = Except.error "n_feature_planes must be odd") ∧
    (∀ bl k : Nat, k % 2 = 1 →
      chessBoardInit bl k = Except.ok (initBoard bl k) ∧
        (initBoard bl k).n_feature_planes = k) ∧
    (∀ (b : ChessBoard) (k : Nat),
      get_feature_planes { b with n_feature_planes := k } = get_feature_planes b) := by
  refine ⟨fun b => ⟨?_, ?_⟩, fun bl k hk => ?_, fun bl k hk => ⟨?_, rfl⟩, fun b k => rfl⟩
  · simp [get_feature_planes]
  · intro pl hpl
    simp only [get_feature_planes, List.mem_map] at hpl
    obtain ⟨c, hc, rfl⟩ := hpl
    by_cases h8 : (c == 8) = true <;> simp [h8]
  · rw [chessBoardInit, if_pos (by simpa using hk)]
  · rw [chessBoardInit, if_neg (by simp [hk])]

/-- The tally of `n_wins` in `TrainPipeLine.__test_model`: a game contributes
exactly when it ended on the candidate's move (the tally line is only reached
there) and the reported winner is BLACK, the color the candidate always
plays. -/
def candidateWins (rs : List (Bool × Option Int)) : Nat :=
  rs.countP (fun r => r.1 && (r.2 == some BLACK))

/-- The promotion decision of `TrainPipeLine.__test_model`, given whether a
best-model file exists and the per-game outcomes (ended-on-candidate-move,
winner): without a best model the candidate is saved unconditionally;
otherwise the best-model file is overwritten exactly when
`n_wins / n_test_games > 0.55`. -/
def testModel (bestExists : Bool) (rs : List (Bool × Option Int))
    (n_test_games : Nat) : Bool :=
  if !bestExists then true
  else decide (((candidateWins rs : ℚ) / (n_test_games : ℚ)) > (0.55 : ℚ))

/-- C4: with a best model present and `n_test_games > 0` matches played, the
candidate is promoted (the best-model file overwritten) if and only if
`w / n_test_games > 0.55`, where `w` is the candidate's win count;
equivalently, exactly when `20 w > 11 n`. -/
theorem c4_promotion_threshold (rs : List (Bool × Option Int)) (n : Nat)
    (hn : 0 < n) :
    (testModel true rs n = true ↔ ((candidateWins rs : ℚ) / (n : ℚ) > (0.55 : ℚ))) ∧
    (testModel true rs n = true ↔ 20 * candidateWins rs > 11 * n) := by
  have h1 : testModel true rs n = true
      ↔ ((candidateWins rs : ℚ) / (n : ℚ) > (0.55 : ℚ)) := by
    rw [testModel]
    simp
  refine ⟨h1, h1.trans ?_⟩
  have hn' : (0 : ℚ) < (n : ℚ) := by exact_mod_cast hn
  rw [gt_iff_lt, lt_div_iff₀ hn']
  rw [show (0.55 : ℚ) = 11 / 20 by norm_num]
  constructor
  · intro h
    have h20 : (11 : ℚ) * n < 20 * candidateWins rs := by linarith
    exact_mod_cast h20
  · intro h
    have h20 : (11 : ℚ) * (n : ℚ) < 20 * (candidateWins rs : ℚ) := by exact_mod_cast h
    linarith

/-- Ten evaluation games of which the candidate wins exactly 6: a 0.6
win-rate, just above the promotion threshold. -/
def sixOfTen : List (Bool × Option Int) :=
  [(true, some BLACK), (true, some BLACK), (true, some BLACK), (true, some BLACK),
    (true, some BLACK), (true, some BLACK), (false, none), (false, none),
    (false, none), (false, none)]

theorem c4_witness :
    (0 : Nat) < 10 ∧
    ((testModel true sixOfTen 10 = true
        ↔ ((candidateWins sixOfTen : ℚ) / (10 : ℚ) > (0.55 : ℚ))) ∧
      (testModel true sixOfTen 10 = true ↔ 20 * candidateWins sixOfTen > 11 * 10)) :=
  ⟨by decide, c4_promotion_threshold sixOfTen 10 (by decide)⟩

/-- One per-ply record of the self-play loop: the feature planes and the
mover, snapshotted before the move is applied, and the search distribution
`π` the oracle returned. -/
abbrev MoveRecord (P : Type) : Type := Feature × Int × P

/-- The payload of `SelfPlayData(feature_planes_list, pi_list, z)` built at
the end of `TrainPipeLine.__self_play`. -/
structure SelfPlayData (P : Type) where
  feature_planes_list : List Feature
  pi_list : List P
  z : List Int

/-- The `while True` loop of `TrainPipeLine.__self_play`, with explicit fuel:
query the oracle, snapshot (feature planes, mover, π) *before* applying the
action, apply it (an illegal oracle action raises — `none`), and stop when
`is_game_over` fires, returning the records and the reported winner. -/
def selfPlayAux {P : Type} (oracle : ChessBoard → Int × P) :
    Nat → ChessBoard → List (MoveRecord P) →
      Option (List (MoveRecord P) × Option Int)
  | 0, _, _ => none
  | fuel + 1, b, acc =>
    let r : MoveRecord P := (get_feature_planes b, b.current_player, (oracle b).2)
    match do_action b (oracle b).1 with
    | Except.error _ => none
    | Except.ok b' =>
      let g := is_game_over b'
      if g.1 then some (acc ++ [r], g.2)
      else selfPlayAux oracle fuel b' (acc ++ [r])

/-- `TrainPipeLine.__self_play`: clear the shared board, run the loop, then
back-fill `z` from the winner: `+1` for records whose mover is the winner,
`-1` for the loser's records, `0` for every record on a draw. -/
def self_play {P : Type} (oracle : ChessBoard → Int × P) (b0 : ChessBoard) :
    Option (SelfPlayData P) :=
  match selfPlayAux oracle (b0.board_len * b0.board_len + 1) (clear_board b0) [] with
  | none => none
  | some (recs, winner) =>
    some ⟨recs.map (fun r => r.1),
      recs.map (fun r => r.2.2),
      recs.map (fun r => match winner with
        | some w => if r.2.1 = w then 1 else -1
        | none => 0)⟩

/-- The trace of one self-play episode: `tr` lists the positions at which
moves were chosen, in order, starting from the given board, each stepping to
the next by the oracle's action; no intermediate position is terminal and
`fin`, reached from the last element of `tr`, is terminal. -/
inductive Episode {P : Type} (oracle : ChessBoard → Int × P) :
    ChessBoard → List ChessBoard → ChessBoard → Prop
  | last {b fin : ChessBoard} : do_action b (oracle b).1 = Except.ok fin →
      (is_game_over fin).1 = true → Episode oracle b [b] fin
  | step {b b' fin : ChessBoard} {tr : List ChessBoard} :
      do_action b (oracle b).1 = Except.ok b' → (is_game_over b').1 = false →
      Episode oracle b' tr fin → Episode oracle b (b :: tr) fin

theorem selfPlayAux_spec {P : Type} (oracle : ChessBoard → Int × P) :
    ∀ (fuel : Nat) (b : ChessBoard) (acc recs : List (MoveRecord P))
      (winner : Option Int),
      selfPlayAux oracle fuel b acc = some (recs, winner) →
      ∃ (tr : List ChessBoard) (fin : ChessBoard),
        Episode oracle b tr fin ∧
        recs = acc ++ tr.map
          (fun x => ((get_feature_planes x, x.current_player, (oracle x).2) : MoveRecord P)) ∧
        (is_game_over fin).2 = winner := by
  intro fuel
  induction fuel with
  | zero =>
    intro b acc recs winner h
    simp [selfPlayAux] at h
  | succ fuel ih =>
    intro b acc recs winner h
    simp only [selfPlayAux] at h
    cases hd : do_action b (oracle b).1 with
    | error b1 => rw [hd] at h; cases h
    | ok b' =>
      rw [hd] at h
      replace h : (if (is_game_over b').1 = true then
          some (acc ++ [((get_feature_planes b, b.current_player, (oracle b).2) : MoveRecord P)],
            (is_game_over b').2)
        else selfPlayAux oracle fuel b'
          (acc ++ [(get_feature_planes b, b.current_player, (oracle b).2)]))
          = some (recs, winner) := h
      by_cases hg : (is_game_over b').1 = true
      · rw [if_pos hg] at h
        cases h
        refine ⟨[b], b', Episode.last hd hg, by simp, rfl⟩
      · rw [if_neg hg] at h
        obtain ⟨tr, fin, hep, hrecs, hwin⟩ := ih b' _ recs winner h
        refine ⟨b :: tr, fin,
          Episode.step hd (by simpa using hg) hep, ?_, hwin⟩
        rw [hrecs]
        simp

/-- C5: whenever `self_play` completes an episode, there is a trace of
pre-move positions such that every recorded feature tensor and every
recorded π are snapshots of the position *before* the corresponding action
was applied, and the outcome labels are back-filled from the terminal
position's winner: `+1` where the recorded mover (the pre-move
`current_player`) equals the winner, `-1` where it lost, and `0` for every
record when the episode is a draw. -/
theorem c5_self_play_snapshot_backfill {P : Type} (oracle : ChessBoard → Int × P)
    (b0 : ChessBoard) (d : SelfPlayData P) (h : self_play oracle b0 = some d) :
    ∃ (tr : List ChessBoard) (fin : ChessBoard),
      Episode oracle (clear_board b0) tr fin ∧
      d.feature_planes_list = tr.map get_feature_planes ∧
      d.pi_list = tr.map (fun x => (oracle x).2) ∧
      d.z = tr.map (fun x => match (is_game_over fin).2 with
        | some w => if x.current_player = w then (1 : Int) else -1
        | none => 0) := by
  rw [self_play] at h
  cases hs : selfPlayAux oracle (b0.board_len * b0.board_len + 1) (clear_board b0) [] with
  | none => rw [hs] at h; cases h
  | some pair =>
    obtain ⟨recs, winner⟩ := pair
    rw [hs] at h
    obtain ⟨tr, fin, hep, hrecs, hwin⟩ := selfPlayAux_spec oracle _ _ _ _ _ hs
    simp only [List.nil_append] at hrecs
    subst hrecs
    subst hwin
    cases h
    refine ⟨tr, fin, hep, ?_, ?_, ?_⟩
    · simp [List.map_map]
    · simp [List.map_map]
    · simp [List.map_map]

/-- An oracle that always plays the first still-available cell (and returns a
unit π), used to exercise the self-play loop. -/
def seqOracle : ChessBoard → Int × Unit :=
  fun b => (((b.available_actions.headD 0 : Nat) : Int), ())

/-- The data of the 3 × 3 self-play episode driven by `seqOracle`: the board
fills up in cell order and the game ends in a draw after 9 moves. -/
def c5data : SelfPlayData Unit :=
  (self_play seqOracle (newBoard 3)).getD ⟨[], [], []⟩

theorem c5_witness :
    ∃ (tr : List ChessBoard) (fin : ChessBoard),
      Episode seqOracle (clear_board (newBoard 3)) tr fin ∧
      c5data.feature_planes_list = tr.map get_feature_planes ∧
      c5data.pi_list = tr.map (fun x => (seqOracle x).2) ∧
      c5data.z = tr.map (fun x => match (is_game_over fin).2 with
        | some w => if x.current_player = w then (1 : Int) else -1
        | none => 0) :=
  c5_self_play_snapshot_backfill seqOracle (newBoard 3) c5data rfl

/-- A filesystem effect the crash guard of `train.py` performs. -/
inductive FsEvent
  | saveModel (path : String)
  | closeWriter
  | writeLosses (path : String)
deriving DecidableEq

/-- The `save_model` decorator of `train.py`: run the wrapped training
function; on any exception (bare `except:`), save the current model under a
timestamped `last_policy_value_net_<t>.pth` file, close boilerplate, and dump
the recorded losses — and return normally, the caught exception is never
re-raised. -/
def save_model (t : String) (body : Except String Unit) :
    List FsEvent × Except String Unit :=
  match body with
  | Except.ok _ => ([], Except.ok ())
  | Except.error _ =>
    ([FsEvent.saveModel ("model\\last_policy_value_net_" ++ t ++ ".pth"),
      FsEvent.closeWriter,
      FsEvent.writeLosses "log\\train_losses.json"],
      Except.ok ())

/-- C9 counterexample: a failing training run wrapped by `save_model`
returns `ok` — the original failure does not propagate to the caller, the
bare `except:` swallows it after checkpointing. -/
theorem c9_counterexample :
    (save_model "2024-01-01_00-00-00" (Except.error "boom")).2 = Except.ok () ∧
    (Except.ok () : Except String Unit) ≠ Except.error "boom" :=
  ⟨rfl, fun h => Except.noConfusion h⟩

/-- C9 amended: on any failure of the wrapped training run, the crash guard
saves the in-progress model under the timestamped filename and flushes the
recorded loss history to `log\train_losses.json` — and then swallows the
failure: the wrapper returns normally, so the original exception never
reaches the caller.  A successful run checkpoints nothing. -/
theorem c9_crash_guard (t e : String) :
    save_model t (Except.error e)
      = ([FsEvent.saveModel ("model\\last_policy_value_net_" ++ t ++ ".pth"),
          FsEvent.closeWriter, FsEvent.writeLosses "log\\train_losses.json"],
        Except.ok ()) ∧
    (save_model t (Except.error e)).2 ≠ Except.error e ∧
    save_model t (Except.ok ()) = ([], Except.ok ()) :=
  ⟨rfl, fun h => Except.noConfusion h, rfl⟩

end AlphaGobang
